import Mathlib

/-
Verification of the ProductTrack-Pro data grid engine: name-column
inference, group-by default selection, tag derivation, filtering, and
the status toggle, shallowly embedded from the TypeScript source.
-/

namespace PT

/- Character and string primitives modelling the JavaScript string
operations used by the grid (toLowerCase, includes, trim, the digits
regex, and length).  ASCII is sufficient for all headers and tokens
involved. -/

def lowerChar (c : Char) : Char :=
  if 65 ≤ c.toNat && c.toNat ≤ 90 then Char.ofNat (c.toNat + 32) else c

def lowerL (l : List Char) : List Char := l.map lowerChar

def isWSChar (c : Char) : Bool :=
  c == ' ' || c == '\t' || c == '\n' || c == '\r'

def trimL (l : List Char) : List Char :=
  ((l.dropWhile isWSChar).reverse.dropWhile isWSChar).reverse

def isDigitChar (c : Char) : Bool :=
  48 ≤ c.toNat && c.toNat ≤ 57

/- The regex test ^\d+$ : nonempty and all digits. -/
def isDigitsL (l : List Char) : Bool :=
  !l.isEmpty && l.all isDigitChar

/- leadsWith pat l : pat occurs at the start of l. -/
def leadsWith : List Char → List Char → Bool
  | [], _ => true
  | _ :: _, [] => false
  | p :: ps, c :: cs => p == c && leadsWith ps cs

/- containsSub pat l : pat occurs somewhere inside l
(JavaScript String.prototype.includes). -/
def containsSub (pat : List Char) : List Char → Bool
  | [] => leadsWith pat []
  | c :: cs => leadsWith pat (c :: cs) || containsSub pat cs

/- Data model: a spreadsheet cell is a string, a number, or null;
an absent key reads as undefined (Option.none). -/
inductive Value where
  | vStr : String → Value
  | vNum : Int → Value
  | vNull : Value
deriving DecidableEq

/- String(v) for a cell value, as JavaScript stringifies it. -/
def valToString : Value → String
  | .vStr s => s
  | .vNum n => toString n
  | .vNull => "null"

inductive Status where
  | incomplete
  | completed
deriving DecidableEq

def statusText : Status → String
  | .incomplete => "Incomplete"
  | .completed => "Completed"

/- A ProductRow: reserved id and processingStatus fields plus the
dynamic spreadsheet columns in insertion order. -/
structure Row where
  id : String
  processingStatus : Status
  fields : List (String × Value)
deriving DecidableEq

/- row[k] : raw keyed access, seeing the reserved fields as their
string values and absent keys as undefined. -/
def getVal (r : Row) (k : String) : Option Value :=
  if k == "id" then some (.vStr r.id)
  else if k == "processingStatus" then some (.vStr (statusText r.processingStatus))
  else (r.fields.find? (fun f => f.1 == k)).map (fun f => f.2)

/- Object.values(row) stringified: dynamic columns, then the two
reserved fields, matching the construction order in parseExcelFile. -/
def rowValues (r : Row) : List String :=
  r.fields.map (fun f => valToString f.2) ++ [r.id, statusText r.processingStatus]

/- Discovered headers: keys of the first row minus the reserved ones. -/
def headersOf : List Row → List String
  | [] => []
  | r :: _ =>
    (r.fields.map (fun f => f.1) ++ ["id", "processingStatus"]).filter
      (fun k => !(k == "id") && !(k == "processingStatus"))

/- Name-column inference, from detectedNameCol in the DataGrid.
Rule 1: name-text heuristics on the lower-cased header, first match
wins. -/
def rule1Score (lowerH : List Char) : Int :=
  if containsSub "classification data".data lowerH then 100
  else if containsSub "description".data lowerH || containsSub "desc".data lowerH then 80
  else if containsSub "product name".data lowerH || containsSub "item name".data lowerH then 70
  else if lowerH == "name".data then 60
  else if containsSub "title".data lowerH then 50
  else 0

/- Rule 2: independent additive penalties. -/
def penaltyScore (lowerH : List Char) : Int :=
  (if containsSub "id".data lowerH || containsSub "code".data lowerH
      || containsSub "sku".data lowerH || containsSub "number".data lowerH
      || containsSub "no.".data lowerH then -50 else 0)
  + (if containsSub "price".data lowerH || containsSub "cost".data lowerH
      || containsSub "qty".data lowerH || containsSub "quantity".data lowerH then -100 else 0)

def baseScore (header : String) : Int :=
  rule1Score (lowerL header.data) + penaltyScore (lowerL header.data)

/- Content-shape counters over the sampled values of one column.
The loop counts a value as numeric when it is a number or a string
matching ^\d+$ after trimming; the space and length counters only run
in the branch for strings that are not numeric after trimming. -/
def isNumericVal : Option Value → Bool
  | some (.vNum _) => true
  | some (.vStr s) => isDigitsL (trimL s.data)
  | _ => false

def isSpacedStrVal : Option Value → Bool
  | some (.vStr s) => !isDigitsL (trimL s.data) && s.data.contains ' '
  | _ => false

def isLongStrVal : Option Value → Bool
  | some (.vStr s) => !isDigitsL (trimL s.data) && decide (5 < s.data.length)
  | _ => false

/- The content-shape score: numberCount > sampleSize * 0.6 gives -200
(for sample sizes up to 5 the float comparison coincides with the
integer test 10 * numberCount > 6 * sampleSize), any spaced string
gives a flat +50, any long string a flat +30. -/
def contentScore (vals : List (Option Value)) : Int :=
  (if 10 * vals.countP isNumericVal > 6 * vals.length then -200 else 0)
  + (if 0 < vals.countP isSpacedStrVal then 50 else 0)
  + (if 0 < vals.countP isLongStrVal then 30 else 0)

/- Score of one header given the sampled values of its column. -/
def headerScore (header : String) (vals : List (Option Value)) : Int :=
  baseScore header + contentScore vals

/- The sampled values of a column: the first min(length, 5) rows. -/
def sampleVals (data : List Row) (header : String) : List (Option Value) :=
  (data.take 5).map (fun r => getVal r header)

def scoreOf (data : List Row) (header : String) : Int :=
  headerScore header (sampleVals data header)

/- Stable insertion sort, descending by key: models the JavaScript
stable Array.prototype.sort with comparator (a, b) => key b - key a.
Each element is inserted after every earlier element whose key is at
least as large, so equal keys keep their original order. -/
def insDesc (key : α → Int) : List α → α → List α
  | [], x => [x]
  | y :: ys, x => if key y < key x then x :: y :: ys else y :: insDesc key ys x

def sortDesc (key : α → Int) (l : List α) : List α :=
  l.foldl (insDesc key) []

/- detectedNameCol: empty string on an empty header list, otherwise
the header of the first element of the score-sorted list. -/
def detectedNameCol (headers : List String) (data : List Row) : String :=
  if headers.isEmpty then ""
  else
    match sortDesc (fun p => p.2) (headers.map (fun h => (h, scoreOf data h))) with
    | [] => ""
    | p :: _ => p.1

/- Modelled from the spec for the refinement claim on tie-breaking:
the first header in the original discovered order whose score equals
the maximum score. -/
def maxScoreD : List Int → Int
  | [] => 0
  | s :: ss => ss.foldl max s

def specNameCol (headers : List String) (data : List Row) : String :=
  match headers.find? (fun h => scoreOf data h == maxScoreD (headers.map (scoreOf data))) with
  | some h => h
  | none => ""

/- Group-by default selection, from the classifyCol effect: keep the
current selection when it is still a header; otherwise, on a nonempty
header list, take the first header matching the classification regex
(case-insensitive substring match on any token), or clear it. -/
def classifyTokens : List String :=
  ["unit", "measure", "packaging", "material", "type", "cat", "group", "classification code"]

def matchesClassify (h : String) : Bool :=
  classifyTokens.any (fun t => containsSub t.data (lowerL h.data))

def classifyColUpdate (headers : List String) (current : String) : String :=
  if headers.contains current then current
  else if !headers.isEmpty then
    match headers.find? matchesClassify with
    | some c => c
    | none => ""
  else current

/- Tag derivation: the normalized group-column value of a row.
null and undefined become the sentinel N/A, anything else is
stringified and trimmed. -/
def normVal : Option Value → String
  | none => "N/A"
  | some .vNull => "N/A"
  | some (.vStr s) => ⟨trimL s.data⟩
  | some (.vNum n) => ⟨trimL (toString n).data⟩

/- Insertion-ordered counting map: Map.set on an existing key updates
in place, a new key is appended. -/
def bump : List (String × Nat) → String → List (String × Nat)
  | [], k => [(k, 1)]
  | (q, c) :: rest, k =>
    if q == k then (q, c + 1) :: rest else (q, c) :: bump rest k

/- One step of the counts loop: a row is only counted when its
normalized value is truthy, i.e. a nonempty string. -/
def tagStep (col : String) (acc : List (String × Nat)) (r : Row) : List (String × Nat) :=
  let v := normVal (getVal r col)
  if v == "" then acc else bump acc v

def tagCounts (col : String) (data : List Row) : List (String × Nat) :=
  data.foldl (tagStep col) []

/- tags: empty when no group column is set, otherwise the counts map
entries sorted by count descending (stable). -/
def tagsFor (col : String) (data : List Row) : List (String × Nat) :=
  if col == "" then []
  else sortDesc (fun t => (t.2 : Int)) (tagCounts col data)

/- Total count associated with a tag name in a (tag, count) list. -/
def assocCount (l : List (String × Nat)) (k : String) : Nat :=
  ((l.filter (fun t => t.1 == k)).map (fun t => t.2)).sum

/- Filtering: a row matches the search when some stringified field
value, lower-cased, contains the lower-cased search term. -/
def matchesSearch (r : Row) (s : String) : Bool :=
  (rowValues r).any (fun v => containsSub (lowerL s.data) (lowerL v.data))

/- A row matches the tag filter when no tag is active or its
normalized group-column value equals the active tag. -/
def matchesTag (r : Row) (col : String) : Option String → Bool
  | none => true
  | some t => normVal (getVal r col) == t

def filteredData (data : List Row) (s : String) (col : String) (t : Option String) : List Row :=
  data.filter (fun r => matchesSearch r s && matchesTag r col t)

/- Status toggle: the StatusToggle button requests the opposite of the
displayed status. -/
def toggleStatus : Status → Status
  | .completed => .incomplete
  | .incomplete => .completed

/- handleUpdateStatus on the active row collection: replace the status
of every row with the given id, keep everything else. -/
def updateStatus (rows : List Row) (i : String) (st : Status) : List Row :=
  rows.map (fun r => if r.id == i then ⟨r.id, st, r.fields⟩ else r)

/- Helper: the first element attaining the maximal key, computed as a
left fold that only replaces the candidate on a strict increase. -/
def pickFirstMax (key : α → Int) : α → List α → α
  | b, [] => b
  | b, x :: xs => pickFirstMax key (if key b < key x then x else b) xs

theorem insDesc_ne_nil (key : α → Int) (acc : List α) (x : α) :
    insDesc key acc x ≠ [] := by
  cases acc with
  | nil => simp [insDesc]
  | cons y ys =>
    simp only [insDesc]
    split <;> simp

theorem foldl_insDesc_ne_nil (key : α → Int) (l : List α) (acc : List α) (h : acc ≠ []) :
    l.foldl (insDesc key) acc ≠ [] := by
  induction l generalizing acc with
  | nil => exact h
  | cons x xs ih => exact ih _ (insDesc_ne_nil key acc x)

theorem headD_foldl_insDesc (key : α → Int) (l : List α) (a : α) (acc : List α) (d : α) :
    (l.foldl (insDesc key) (a :: acc)).headD d = pickFirstMax key a l := by
  induction l generalizing a acc with
  | nil => simp [pickFirstMax]
  | cons x xs ih =>
    simp only [List.foldl_cons, insDesc, pickFirstMax]
    split
    · exact ih x (a :: acc)
    · exact ih a (insDesc key acc x)

theorem le_foldl_max (l : List Int) (a : Int) : a ≤ l.foldl max a := by
  induction l generalizing a with
  | nil => simp
  | cons x xs ih => exact le_trans (le_max_left a x) (ih (max a x))

theorem key_pickFirstMax (key : α → Int) (b : α) (l : List α) :
    key (pickFirstMax key b l) = (l.map key).foldl max (key b) := by
  induction l generalizing b with
  | nil => simp [pickFirstMax]
  | cons x xs ih =>
    simp only [pickFirstMax, List.map_cons, List.foldl_cons]
    rw [ih]
    congr 1
    split
    · exact (max_eq_right (by omega)).symm
    · exact (max_eq_left (by omega)).symm

theorem pickFirstMax_mem (key : α → Int) (b : α) (l : List α) :
    pickFirstMax key b l ∈ b :: l := by
  induction l generalizing b with
  | nil => simp [pickFirstMax]
  | cons x xs ih =>
    simp only [pickFirstMax]
    split
    · have h := ih x
      simp only [List.mem_cons] at h ⊢
      tauto
    · have h := ih b
      simp only [List.mem_cons] at h ⊢
      tauto

theorem find?_max_eq_pickFirstMax (key : α → Int) (b : α) (l : List α) :
    (b :: l).find? (fun x => key x == (l.map key).foldl max (key b))
      = some (pickFirstMax key b l) := by
  induction l generalizing b with
  | nil => simp [pickFirstMax]
  | cons x xs ih =>
    by_cases hk : key b < key x
    · have hmax : max (key b) (key x) = key x := max_eq_right (le_of_lt hk)
      have hble : key x ≤ (xs.map key).foldl max (key x) := le_foldl_max _ _
      have hgoalM : ((x :: xs).map key).foldl max (key b) = (xs.map key).foldl max (key x) := by
        simp only [List.map_cons, List.foldl_cons, hmax]
      have hpredb : ¬ ((fun y => key y == ((x :: xs).map key).foldl max (key b)) b = true) := by
        simp only [hgoalM, beq_iff_eq]
        omega
      have hstep : (b :: x :: xs).find? (fun y => key y == ((x :: xs).map key).foldl max (key b))
          = (x :: xs).find? (fun y => key y == ((x :: xs).map key).foldl max (key b)) :=
        List.find?_cons_of_neg _ hpredb
      rw [hstep]
      have h2 := ih x
      simp only [pickFirstMax, if_pos hk, hgoalM]
      exact h2
    · have hxb : key x ≤ key b := not_lt.mp hk
      have hmax : max (key b) (key x) = key b := max_eq_left hxb
      have hgoalM : ((x :: xs).map key).foldl max (key b) = (xs.map key).foldl max (key b) := by
        simp only [List.map_cons, List.foldl_cons, hmax]
      have h2 := ih b
      simp only [pickFirstMax, if_neg hk, hgoalM]
      by_cases hb : ((fun y => key y == (xs.map key).foldl max (key b)) b = true)
      · have hstep : (b :: x :: xs).find? (fun y => key y == (xs.map key).foldl max (key b))
            = some b := List.find?_cons_of_pos _ hb
        have hstep2 : (b :: xs).find? (fun y => key y == (xs.map key).foldl max (key b))
            = some b := List.find?_cons_of_pos _ hb
        rw [hstep, ← hstep2]
        exact h2
      · have hblt : key b < (xs.map key).foldl max (key b) :=
          lt_of_le_of_ne (le_foldl_max _ _) (by simpa using hb)
        have hx : ¬ ((fun y => key y == (xs.map key).foldl max (key b)) x = true) := by
          simp only [beq_iff_eq]
          omega
        have hstep : (b :: x :: xs).find? (fun y => key y == (xs.map key).foldl max (key b))
            = (x :: xs).find? (fun y => key y == (xs.map key).foldl max (key b)) :=
          List.find?_cons_of_neg _ hb
        have hstep2 : (x :: xs).find? (fun y => key y == (xs.map key).foldl max (key b))
            = xs.find? (fun y => key y == (xs.map key).foldl max (key b)) :=
          List.find?_cons_of_neg _ hx
        have hstep3 : (b :: xs).find? (fun y => key y == (xs.map key).foldl max (key b))
            = xs.find? (fun y => key y == (xs.map key).foldl max (key b)) :=
          List.find?_cons_of_neg _ hb
        rw [hstep, hstep2, ← hstep3]
        exact h2

/- Core refinement: the code's sort-then-head selection equals the
spec's first-max selection. -/
theorem detectedNameCol_eq_spec (headers : List String) (data : List Row) :
    detectedNameCol headers data = specNameCol headers data := by
  cases headers with
  | nil => rfl
  | cons h t =>
    have hsort : sortDesc (fun q : String × Int => q.2)
        ((h :: t).map (fun x => (x, scoreOf data x)))
        = (t.map (fun x => (x, scoreOf data x))).foldl
            (insDesc (fun q : String × Int => q.2)) [(h, scoreOf data h)] := by
      simp only [sortDesc, List.map_cons, List.foldl_cons, insDesc]
    have hne : sortDesc (fun q : String × Int => q.2)
        ((h :: t).map (fun x => (x, scoreOf data x))) ≠ [] := by
      rw [hsort]
      exact foldl_insDesc_ne_nil _ _ _ (by simp)
    obtain ⟨p, rest, hp⟩ := List.exists_cons_of_ne_nil hne
    have hpick : p = pickFirstMax (fun q : String × Int => q.2) (h, scoreOf data h)
        (t.map (fun x => (x, scoreOf data x))) := by
      have h2 := headD_foldl_insDesc (fun q : String × Int => q.2)
        (t.map (fun x => (x, scoreOf data x))) (h, scoreOf data h) [] p
      rw [← hsort, hp] at h2
      simpa using h2
    have hL : detectedNameCol (h :: t) data = p.1 := by
      unfold detectedNameCol
      rw [if_neg (by simp), hp]
    have hfind := find?_max_eq_pickFirstMax (fun q : String × Int => q.2)
      (h, scoreOf data h) (t.map (fun x => (x, scoreOf data x)))
    rw [← hpick] at hfind
    have hkeys : ((t.map (fun x => (x, scoreOf data x))).map (fun q : String × Int => q.2))
        = t.map (scoreOf data) := by
      simp [List.map_map]
    rw [hkeys] at hfind
    have hmap : ((h, scoreOf data h) :: t.map (fun x => (x, scoreOf data x)))
        = (h :: t).map (fun x => (x, scoreOf data x)) := by
      simp
    rw [hmap, List.find?_map] at hfind
    have hM : maxScoreD ((h :: t).map (scoreOf data))
        = (t.map (scoreOf data)).foldl max (scoreOf data h) := by
      simp [maxScoreD]
    obtain ⟨a, ha, hfa⟩ := Option.map_eq_some'.mp hfind
    have hcomp : ((fun q : String × Int => q.2 == (t.map (scoreOf data)).foldl max (scoreOf data h))
        ∘ (fun x => (x, scoreOf data x)))
        = (fun h' => scoreOf data h' == maxScoreD ((h :: t).map (scoreOf data))) := by
      funext x
      simp only [Function.comp_apply, maxScoreD, List.map_cons]
    rw [hcomp] at ha
    have hR : specNameCol (h :: t) data = a := by
      unfold specNameCol
      rw [ha]
    rw [hL, hR, ← hfa]

theorem mem_le_foldl_max (l : List Int) (a x : Int) (hx : x ∈ l) : x ≤ l.foldl max a := by
  induction l generalizing a with
  | nil => cases hx
  | cons y ys ih =>
    rcases List.mem_cons.mp hx with h | h
    · subst h
      exact le_trans (le_max_right a x) (le_foldl_max ys _)
    · exact ih (max a y) h

theorem foldl_max_attained (l : List Int) (a : Int) :
    l.foldl max a = a ∨ l.foldl max a ∈ l := by
  induction l generalizing a with
  | nil => left; rfl
  | cons x xs ih =>
    rw [List.foldl_cons]
    rcases ih (max a x) with h | h
    · rcases max_cases a x with ⟨he, _⟩ | ⟨he, _⟩
      · left; rw [h, he]
      · right; rw [h, he]; exact List.mem_cons_self x xs
    · right; exact List.mem_cons_of_mem x h

/- On a nonempty header list the spec selection is a header whose
score is maximal. -/
theorem specNameCol_mem_max (h : String) (t : List String) (data : List Row) :
    specNameCol (h :: t) data ∈ h :: t
      ∧ scoreOf data (specNameCol (h :: t) data) = maxScoreD ((h :: t).map (scoreOf data)) := by
  have hM : maxScoreD ((h :: t).map (scoreOf data))
      = (t.map (scoreOf data)).foldl max (scoreOf data h) := by
    simp [maxScoreD]
  have hex : ∃ x, x ∈ h :: t
      ∧ (scoreOf data x == maxScoreD ((h :: t).map (scoreOf data))) = true := by
    rcases foldl_max_attained (t.map (scoreOf data)) (scoreOf data h) with hc | hc
    · exact ⟨h, List.mem_cons_self h t, by rw [hM, hc]; simp⟩
    · obtain ⟨x, hxmem, hxeq⟩ := List.mem_map.mp hc
      exact ⟨x, List.mem_cons_of_mem h hxmem, by rw [hM, ← hxeq]; simp⟩
  have hsome : ((h :: t).find?
      (fun x => scoreOf data x == maxScoreD ((h :: t).map (scoreOf data)))).isSome := by
    rw [List.find?_isSome]
    obtain ⟨x, hx1, hx2⟩ := hex
    exact ⟨x, hx1, hx2⟩
  obtain ⟨a, ha⟩ := Option.isSome_iff_exists.mp hsome
  have hmem := List.mem_of_find?_eq_some ha
  have hpred := List.find?_some ha
  have hspec : specNameCol (h :: t) data = a := by
    unfold specNameCol
    rw [ha]
  rw [hspec]
  exact ⟨hmem, by simpa using hpred⟩

/-- Claim C5: for every non-empty header list and sample, if two or
more headers attain the maximal score, the name-column inference
returns the one occurring earliest in the original discovered-column
order.  Proven as a refinement: the code's stable sort-then-head
selection coincides on every input with the spec-side selection
specNameCol, which scans the headers in original order and returns
the first one whose score equals the maximum (and the empty string on
an empty header list). -/
theorem claim_C5_tie_break (headers : List String) (data : List Row) :
    detectedNameCol headers data = specNameCol headers data :=
  detectedNameCol_eq_spec headers data

/-- Claim C7: name-column inference is total: for every non-empty
header list and every row-shape input it returns one of the headers,
and for an empty header list it returns the empty string. -/
theorem claim_C7_total (headers : List String) (data : List Row) :
    (headers = [] → detectedNameCol headers data = "")
    ∧ (headers ≠ [] → detectedNameCol headers data ∈ headers) := by
  constructor
  · intro h
    subst h
    rfl
  · intro h
    obtain ⟨a, t, rfl⟩ := List.exists_cons_of_ne_nil h
    rw [detectedNameCol_eq_spec]
    exact (specNameCol_mem_max a t data).1

/-- Witness for claim C7 at concrete inputs: the empty header list
yields the empty string, and a singleton header list yields its
header, including on rows with missing keys and mixed value types. -/
theorem claim_C7_witness :
    detectedNameCol [] [] = ""
    ∧ detectedNameCol ["Name"] [⟨"r1", .incomplete, [("Other", .vNum 3)]⟩] ∈ ["Name"] :=
  ⟨(claim_C7_total [] []).1 rfl,
   (claim_C7_total ["Name"] [⟨"r1", .incomplete, [("Other", .vNum 3)]⟩]).2 (by simp)⟩

/-- Claim C1 counterexample: with the same sample applied to both
candidates, the header Classification Data Code scores strictly lower
than Description, because it takes the +100 rule-1 bonus but also the
-50 rule-2 penalty for containing the substring code, giving a base
of 50 against Description's 80.  This refutes the claimed ordering at
a concrete sample. -/
theorem claim_C1_counterexample :
    headerScore "Classification Data Code" [some (Value.vStr "Widget A")]
      < headerScore "Description" [some (Value.vStr "Widget A")] := by decide

/-- Claim C1 (amended): with the same sample rows applied to every
candidate, a header named Description scores higher than Product
Name, which scores higher than plain Name, which scores higher than
Classification Data Code (whose +100 rule-1 bonus is cut to a net 50
by the -50 rule-2 penalty for containing the substring code). -/
theorem claim_C1_priority (vals : List (Option Value)) :
    headerScore "Description" vals > headerScore "Product Name" vals
    ∧ headerScore "Product Name" vals > headerScore "Name" vals
    ∧ headerScore "Name" vals > headerScore "Classification Data Code" vals := by
  have h1 : baseScore "Description" = 80 := by decide
  have h2 : baseScore "Product Name" = 70 := by decide
  have h3 : baseScore "Name" = 60 := by decide
  have h4 : baseScore "Classification Data Code" = 50 := by decide
  unfold headerScore
  rw [h1, h2, h3, h4]
  omega

/- Concrete dataset for the claim C3 counterexample: the SKU column
holds four numerals and one spaced long string, the only alternative
column holds numerals in every sampled row. -/
def c3Rows : List Row :=
  [⟨"r1", .incomplete, [("SKU", .vNum 1), ("Other", .vNum 7)]⟩,
   ⟨"r2", .incomplete, [("SKU", .vNum 2), ("Other", .vNum 7)]⟩,
   ⟨"r3", .incomplete, [("SKU", .vNum 3), ("Other", .vNum 7)]⟩,
   ⟨"r4", .incomplete, [("SKU", .vNum 4), ("Other", .vNum 7)]⟩,
   ⟨"r5", .incomplete, [("SKU", .vStr "abc def"), ("Other", .vNum 7)]⟩]

/-- Claim C3 counterexample: the header SKU is selected as the name
column even though its sampled values are more than 60 percent
numeric and the alternative header Other has a non-negative base
score; the alternative's own all-numeric samples drag its total to
-200, below SKU's -170 (base -50, numeric penalty -200, space bonus
+50, length bonus +30). -/
theorem claim_C3_counterexample :
    detectedNameCol ["SKU", "Other"] c3Rows = "SKU"
    ∧ 10 * (sampleVals c3Rows "SKU").countP isNumericVal
        > 6 * (sampleVals c3Rows "SKU").length
    ∧ 0 ≤ baseScore "Other" := by decide

/-- Claim C3 (amended): for every header list containing a header
named Price or SKU whose sampled values are more than 60 percent
numeric, if any alternative header exists with a non-negative base
(rule-1 plus rule-2) score whose own sampled values are not more than
60 percent numeric, the name-column inference never selects the Price
or SKU header. -/
theorem claim_C3_penalty_dominance (headers : List String) (data : List Row)
    (tgt alt : String) (htgt : tgt = "Price" ∨ tgt = "SKU") (hmem : tgt ∈ headers)
    (halt : alt ∈ headers)
    (hnum : 10 * (sampleVals data tgt).countP isNumericVal
      > 6 * (sampleVals data tgt).length)
    (hbase : 0 ≤ baseScore alt)
    (haltnum : ¬ (10 * (sampleVals data alt).countP isNumericVal
      > 6 * (sampleVals data alt).length)) :
    detectedNameCol headers data ≠ tgt := by
  have hts : scoreOf data tgt ≤ -170 := by
    unfold scoreOf headerScore contentScore
    rw [if_pos hnum]
    rcases htgt with rfl | rfl
    · have hb : baseScore "Price" = -100 := by decide
      rw [hb]
      split <;> split <;> omega
    · have hb : baseScore "SKU" = -50 := by decide
      rw [hb]
      split <;> split <;> omega
  have has : 0 ≤ scoreOf data alt := by
    unfold scoreOf headerScore contentScore
    rw [if_neg haltnum]
    split <;> split <;> omega
  intro hEq
  obtain ⟨hh, tt, rfl⟩ := List.exists_cons_of_ne_nil (List.ne_nil_of_mem hmem)
  rw [detectedNameCol_eq_spec] at hEq
  have hscore : scoreOf data tgt = maxScoreD ((hh :: tt).map (scoreOf data)) := by
    rw [← hEq]
    exact (specNameCol_mem_max hh tt data).2
  have halt_le : scoreOf data alt ≤ maxScoreD ((hh :: tt).map (scoreOf data)) := by
    have hM : maxScoreD ((hh :: tt).map (scoreOf data))
        = (tt.map (scoreOf data)).foldl max (scoreOf data hh) := by
      simp [maxScoreD]
    rw [hM]
    rcases List.mem_cons.mp halt with h | h
    · subst h
      exact le_foldl_max _ _
    · exact mem_le_foldl_max _ _ _ (List.mem_map_of_mem _ h)
  omega

/-- Witness for claim C3 (amended) at a concrete input: with a
numeric SKU column and a textual Name column, the inference does not
select SKU. -/
theorem claim_C3_witness :
    detectedNameCol ["SKU", "Name"]
      [⟨"r1", .incomplete, [("SKU", .vNum 5), ("Name", .vStr "Widget")]⟩] ≠ "SKU" :=
  claim_C3_penalty_dominance ["SKU", "Name"]
    [⟨"r1", .incomplete, [("SKU", .vNum 5), ("Name", .vStr "Widget")]⟩]
    "SKU" "Name" (Or.inr rfl) (by decide) (by decide) (by decide) (by decide) (by decide)

/- Modelled from the claim's words for claim C4: the space and length
bonuses counting every sampled string value, regardless of whether it
matches ^\d+$ after trimming. -/
def isSpacedStrClaim : Option Value → Bool
  | some (.vStr s) => s.data.contains ' '
  | _ => false

def isLongStrClaim : Option Value → Bool
  | some (.vStr s) => decide (5 < s.data.length)
  | _ => false

def contentScoreClaim (vals : List (Option Value)) : Int :=
  (if 10 * vals.countP isNumericVal > 6 * vals.length then -200 else 0)
  + (if 0 < vals.countP isSpacedStrClaim then 50 else 0)
  + (if 0 < vals.countP isLongStrClaim then 30 else 0)

/-- Claim C4 counterexample: on the single sampled string value
consisting of a space followed by 123, the code's content-shape score
is -200 with no space bonus, because the space and length counters
only run for string values that do not match the digits pattern after
trimming; the claim's reading, which grants +50 to any string value
containing a space, gives -150 instead. -/
theorem claim_C4_counterexample :
    contentScore [some (Value.vStr " 123")] = -200
    ∧ contentScoreClaim [some (Value.vStr " 123")] = -150 := by decide

theorem countP_pos_iff_any (p : α → Bool) (l : List α) :
    (0 < l.countP p) ↔ (l.any p = true) := by
  rw [List.countP_pos_iff, List.any_eq_true]

/-- Claim C4 (amended): for every sample of column values, the
content-shape score adds -200 when more than 60 percent of sampled
values are numeric (a number, or a string matching the digits pattern
after trimming), adds a flat +50 when any sampled string value that
is not numeric after trimming contains a space character, and adds a
flat +30 when any such non-numeric string value is longer than 5
characters. -/
theorem claim_C4_content_shape (vals : List (Option Value)) :
    contentScore vals
      = (if 10 * vals.countP isNumericVal > 6 * vals.length then -200 else 0)
        + (if vals.any isSpacedStrVal then 50 else 0)
        + (if vals.any isLongStrVal then 30 else 0) := by
  unfold contentScore
  rw [if_congr (countP_pos_iff_any isSpacedStrVal vals) rfl rfl,
    if_congr (countP_pos_iff_any isLongStrVal vals) rfl rfl]

theorem insDesc_perm (key : α → Int) (acc : List α) (x : α) :
    List.Perm (insDesc key acc x) (x :: acc) := by
  induction acc with
  | nil => exact List.Perm.refl _
  | cons y ys ih =>
    simp only [insDesc]
    split
    · exact List.Perm.refl _
    · exact (ih.cons y).trans (List.Perm.swap x y ys)

theorem foldl_insDesc_perm (key : α → Int) (l acc : List α) :
    List.Perm (l.foldl (insDesc key) acc) (l ++ acc) := by
  induction l generalizing acc with
  | nil => simp
  | cons x xs ih =>
    rw [List.foldl_cons]
    have h1 := ih (insDesc key acc x)
    have h2 : List.Perm (xs ++ insDesc key acc x) (xs ++ (x :: acc)) :=
      List.Perm.append_left xs (insDesc_perm key acc x)
    have h3 : List.Perm (xs ++ (x :: acc)) (x :: (xs ++ acc)) := List.perm_middle
    exact (h1.trans h2).trans h3

theorem sortDesc_perm (key : α → Int) (l : List α) :
    List.Perm (sortDesc key l) l := by
  have h := foldl_insDesc_perm key l []
  simpa [sortDesc] using h

theorem assocCount_perm (l₁ l₂ : List (String × Nat)) (h : List.Perm l₁ l₂) (k : String) :
    assocCount l₁ k = assocCount l₂ k := by
  unfold assocCount
  exact List.Perm.sum_eq ((h.filter _).map _)

theorem assocCount_nil (k : String) : assocCount [] k = 0 := rfl

theorem assocCount_cons (q : String) (c : Nat) (ys : List (String × Nat)) (k : String) :
    assocCount ((q, c) :: ys) k = (if q == k then c else 0) + assocCount ys k := by
  unfold assocCount
  by_cases h : (q == k) = true
  · simp [List.filter_cons, h]
  · simp [List.filter_cons, h]

theorem assocCount_bump_self (l : List (String × Nat)) (k : String) :
    assocCount (bump l k) k = assocCount l k + 1 := by
  induction l with
  | nil =>
    simp [bump, assocCount_cons, assocCount_nil]
  | cons y ys ih =>
    obtain ⟨q, c⟩ := y
    simp only [bump]
    by_cases h : (q == k) = true
    · rw [if_pos h, assocCount_cons, assocCount_cons, if_pos h, if_pos h]
      omega
    · rw [if_neg h, assocCount_cons, assocCount_cons, if_neg h, ih]
      omega

theorem assocCount_bump_ne (l : List (String × Nat)) (k j : String)
    (hne : ¬ ((j == k) = true)) :
    assocCount (bump l j) k = assocCount l k := by
  induction l with
  | nil =>
    rw [assocCount_nil]
    show assocCount [(j, 1)] k = 0
    rw [assocCount_cons, if_neg hne, assocCount_nil]
  | cons y ys ih =>
    obtain ⟨q, c⟩ := y
    simp only [bump]
    by_cases h : (q == j) = true
    · have hq : q = j := eq_of_beq h
      subst hq
      rw [if_pos (beq_self_eq_true q), assocCount_cons, assocCount_cons, if_neg hne, if_neg hne]
    · rw [if_neg h, assocCount_cons, assocCount_cons, ih]

theorem tagStep_of_empty (col : String) (acc : List (String × Nat)) (r : Row)
    (hv : (normVal (getVal r col) == "") = true) :
    tagStep col acc r = acc := by
  unfold tagStep
  rw [if_pos hv]

theorem tagStep_of_nonempty (col : String) (acc : List (String × Nat)) (r : Row)
    (hv : ¬ ((normVal (getVal r col) == "") = true)) :
    tagStep col acc r = bump acc (normVal (getVal r col)) := by
  unfold tagStep
  rw [if_neg hv]

theorem assocCount_tagCounts_aux (col : String) (data : List Row)
    (acc : List (String × Nat)) (k : String) (hk : ¬ (k = "")) :
    assocCount (data.foldl (tagStep col) acc) k
      = assocCount acc k + data.countP (fun r => normVal (getVal r col) == k) := by
  induction data generalizing acc with
  | nil => simp
  | cons r rs ih =>
    rw [List.foldl_cons, List.countP_cons]
    by_cases hv : ((normVal (getVal r col) == "") = true)
    · have hveq : normVal (getVal r col) = "" := eq_of_beq hv
      have hpr : ¬ ((normVal (getVal r col) == k) = true) := by
        rw [hveq, beq_iff_eq]
        exact fun hc => hk hc.symm
      rw [tagStep_of_empty col acc r hv, ih acc, if_neg hpr]
      simp
    · rw [tagStep_of_nonempty col acc r hv, ih (bump acc (normVal (getVal r col)))]
      by_cases hvk : ((normVal (getVal r col) == k) = true)
      · have hkk : normVal (getVal r col) = k := eq_of_beq hvk
        rw [hkk, assocCount_bump_self, if_pos (beq_self_eq_true k)]
        omega
      · rw [assocCount_bump_ne _ _ _ hvk, if_neg hvk]
        simp

theorem assocCount_tagCounts (col : String) (data : List Row) (k : String)
    (hk : ¬ (k = "")) :
    assocCount (tagCounts col data) k
      = data.countP (fun r => normVal (getVal r col) == k) := by
  have h := assocCount_tagCounts_aux col data [] k hk
  rw [assocCount_nil] at h
  simpa [tagCounts] using h

theorem assocCount_tagCounts_aux_empty (col : String) (data : List Row)
    (acc : List (String × Nat)) (h : assocCount acc "" = 0) :
    assocCount (data.foldl (tagStep col) acc) "" = 0 := by
  induction data generalizing acc with
  | nil => exact h
  | cons r rs ih =>
    rw [List.foldl_cons]
    by_cases hv : ((normVal (getVal r col) == "") = true)
    · rw [tagStep_of_empty col acc r hv]
      exact ih acc h
    · rw [tagStep_of_nonempty col acc r hv]
      exact ih _ (by rw [assocCount_bump_ne _ _ _ hv]; exact h)

/-- Claim C2 counterexample: of two rows, one holds null in the group
column and one holds a whitespace-only string that trims to empty;
the claim predicts a single N/A tag of count 2, but the code counts
only the null row (the trimmed empty string is falsy and its row is
dropped from the histogram), so the N/A count is 1. -/
theorem claim_C2_counterexample :
    assocCount (tagsFor "G"
      [⟨"a", Status.incomplete, [("G", Value.vNull)]⟩,
       ⟨"b", Status.incomplete, [("G", Value.vStr "  ")]⟩]) "N/A" = 1
    ∧ getVal ⟨"b", Status.incomplete, [("G", Value.vStr "  ")]⟩ "G"
        = some (Value.vStr "  ")
    ∧ trimL "  ".data = [] := by decide

/-- Claim C2 (amended): for every row collection and nonempty group
column, and every nonempty tag name k, the count recorded for k in
the derived tags equals the number of rows whose group-column value
normalizes to k (null, undefined and absent values normalize to N/A;
every other value is stringified and trimmed); rows whose value
normalizes to the empty string are dropped from the histogram
entirely, and no empty-string tag is ever produced. -/
theorem claim_C2_tags (col : String) (data : List Row) (k : String)
    (hcol : ¬ (col = "")) (hk : ¬ (k = "")) :
    assocCount (tagsFor col data) k
      = data.countP (fun r => normVal (getVal r col) == k)
    ∧ assocCount (tagsFor col data) "" = 0 := by
  have hcolb : ¬ ((col == "") = true) := by
    rw [beq_iff_eq]
    exact hcol
  unfold tagsFor
  rw [if_neg hcolb]
  have hperm := sortDesc_perm (fun t : String × Nat => (t.2 : Int)) (tagCounts col data)
  constructor
  · rw [assocCount_perm _ _ hperm k]
    exact assocCount_tagCounts col data k hk
  · rw [assocCount_perm _ _ hperm ""]
    have h := assocCount_tagCounts_aux_empty col data [] (assocCount_nil "")
    simpa [tagCounts] using h

/-- Witness for claim C2 (amended) at a concrete dataset: the tag box
is counted once per row whose Unit value trims to box, and no
empty-string tag exists. -/
theorem claim_C2_witness :
    assocCount (tagsFor "Unit"
      [⟨"1", Status.incomplete, [("Name", Value.vStr "Widget A"), ("Unit", Value.vStr "box")]⟩,
       ⟨"2", Status.incomplete, [("Name", Value.vStr "Widget B"), ("Unit", Value.vStr " box ")]⟩,
       ⟨"3", Status.completed, [("Name", Value.vStr "Gadget"), ("Unit", Value.vStr "case")]⟩]) "box"
      = List.countP (fun r => normVal (getVal r "Unit") == "box")
        [⟨"1", Status.incomplete, [("Name", Value.vStr "Widget A"), ("Unit", Value.vStr "box")]⟩,
         ⟨"2", Status.incomplete, [("Name", Value.vStr "Widget B"), ("Unit", Value.vStr " box ")]⟩,
         ⟨"3", Status.completed, [("Name", Value.vStr "Gadget"), ("Unit", Value.vStr "case")]⟩]
    ∧ assocCount (tagsFor "Unit"
      [⟨"1", Status.incomplete, [("Name", Value.vStr "Widget A"), ("Unit", Value.vStr "box")]⟩,
       ⟨"2", Status.incomplete, [("Name", Value.vStr "Widget B"), ("Unit", Value.vStr " box ")]⟩,
       ⟨"3", Status.completed, [("Name", Value.vStr "Gadget"), ("Unit", Value.vStr "case")]⟩]) "" = 0 :=
  claim_C2_tags "Unit"
    [⟨"1", Status.incomplete, [("Name", Value.vStr "Widget A"), ("Unit", Value.vStr "box")]⟩,
     ⟨"2", Status.incomplete, [("Name", Value.vStr "Widget B"), ("Unit", Value.vStr " box ")]⟩,
     ⟨"3", Status.completed, [("Name", Value.vStr "Gadget"), ("Unit", Value.vStr "case")]⟩]
    "box" (by decide) (by decide)

theorem containsSub_nil (l : List Char) : containsSub [] l = true := by
  cases l <;> simp [containsSub, leadsWith]

/-- Claim C6: for every row collection, search text and active tag,
the filtered view is exactly the intersection of the rows matching
the search and the rows matching the tag; with an empty search text
and no active tag the filtered view is the full row collection
unchanged. -/
theorem claim_C6_filter (data : List Row) (s : String) (col : String) (t : Option String) :
    (∀ r, r ∈ filteredData data s col t
      ↔ (r ∈ data.filter (fun r => matchesSearch r s)
          ∧ r ∈ data.filter (fun r => matchesTag r col t)))
    ∧ filteredData data "" col none = data := by
  constructor
  · intro r
    simp only [filteredData, List.mem_filter, Bool.and_eq_true]
    tauto
  · unfold filteredData
    apply List.filter_eq_self.mpr
    intro r _
    rw [Bool.and_eq_true]
    constructor
    · unfold matchesSearch
      rw [List.any_eq_true]
      refine ⟨r.id, ?_, ?_⟩
      · simp [rowValues]
      · have hnil : lowerL "".data = [] := rfl
        rw [hnil]
        exact containsSub_nil _
    · rfl

/-- Witness for claim C6 at a concrete dataset: the empty search with
no active tag leaves the collection unchanged. -/
theorem claim_C6_witness :
    filteredData [⟨"1", Status.incomplete, [("Name", Value.vStr "Widget A")]⟩] "" "Unit" none
      = [⟨"1", Status.incomplete, [("Name", Value.vStr "Widget A")]⟩] :=
  (claim_C6_filter [⟨"1", Status.incomplete, [("Name", Value.vStr "Widget A")]⟩] "" "Unit" none).2

theorem find?_eq_of_first (p : α → Bool) (l : List α) (k : Nat) (hk : k < l.length)
    (h1 : p (l.get ⟨k, hk⟩) = true)
    (h2 : ∀ j, (hj : j < k) → p (l.get ⟨j, lt_trans hj hk⟩) = false) :
    l.find? p = some (l.get ⟨k, hk⟩) := by
  induction l generalizing k with
  | nil => cases hk
  | cons x xs ih =>
    cases k with
    | zero =>
      exact List.find?_cons_of_pos xs h1
    | succ n =>
      have hx : p x = false := h2 0 (Nat.succ_pos n)
      have hx2 : ¬ (p x = true) := by
        rw [hx]
        exact Bool.false_ne_true
      rw [List.find?_cons_of_neg xs hx2]
      exact ih n (Nat.lt_of_succ_lt_succ hk) h1
        (fun j hj => h2 (j + 1) (Nat.succ_lt_succ hj))

/-- Claim C8 counterexample: with an empty header list and a stale
current selection, the effect's nonempty-headers guard skips the
inference entirely and the stale selection is preserved, whereas the
claim says a no-match scan leaves the group column unset (empty). -/
theorem claim_C8_counterexample :
    classifyColUpdate [] "Unit" = "Unit" ∧ ¬ ("Unit" ∈ ([] : List String)) := by
  constructor
  · rfl
  · simp

/-- Claim C8 (amended): group-by default selection preserves the
current selection when it is still present in the header set; when it
is absent and the header list is nonempty it scans the headers in
original order and picks the first one matching, case-insensitively,
any of the classification tokens, or clears the selection when none
match; when the header list is empty the current selection is left
unchanged (inference does not run). -/
theorem claim_C8_group_default (headers : List String) (current : String) :
    (current ∈ headers → classifyColUpdate headers current = current)
    ∧ (¬ (current ∈ headers) → headers ≠ [] →
        ((∀ h ∈ headers, matchesClassify h = false) → classifyColUpdate headers current = "")
        ∧ (∀ k, (hk : k < headers.length) → matchesClassify (headers.get ⟨k, hk⟩) = true →
            (∀ j, (hj : j < k) → matchesClassify (headers.get ⟨j, lt_trans hj hk⟩) = false) →
            classifyColUpdate headers current = headers.get ⟨k, hk⟩))
    ∧ (headers = [] → classifyColUpdate headers current = current) := by
  refine ⟨?_, ?_, ?_⟩
  · intro h
    unfold classifyColUpdate
    rw [if_pos (by rw [List.contains_iff_exists_mem_beq]; exact ⟨current, h, beq_self_eq_true current⟩)]
  · intro hnm hne
    have hcont : ¬ (headers.contains current = true) := by
      rw [List.contains_iff_exists_mem_beq]
      intro ⟨a, ha, hab⟩
      rw [← eq_of_beq hab] at ha
      exact hnm ha
    have hemp : ¬ (headers.isEmpty = true) := by
      cases headers with
      | nil => exact absurd rfl hne
      | cons x xs => simp
    constructor
    · intro hall
      unfold classifyColUpdate
      rw [if_neg hcont, if_pos (by simpa using hemp)]
      rw [List.find?_eq_none.mpr (fun x hx => by rw [hall x hx]; exact Bool.false_ne_true)]
    · intro k hk hmatch hbefore
      unfold classifyColUpdate
      rw [if_neg hcont, if_pos (by simpa using hemp)]
      rw [find?_eq_of_first matchesClassify headers k hk hmatch hbefore]
  · intro h
    subst h
    rfl

/-- Witness for claim C8 (amended) at concrete inputs: a still-valid
selection is preserved, and an invalid selection is replaced by the
first header containing a classification token (Unit Type, while
Price matches no token). -/
theorem claim_C8_witness :
    classifyColUpdate ["Price", "Unit Type", "Group"] "Price" = "Price"
    ∧ classifyColUpdate ["Price", "Unit Type", "Group"] "zzz" = "Unit Type" :=
  ⟨(claim_C8_group_default ["Price", "Unit Type", "Group"] "Price").1 (by simp),
   ((claim_C8_group_default ["Price", "Unit Type", "Group"] "zzz").2.1 (by decide) (by simp)).2
     1 (by decide) (by decide)
     (fun j hj => by
       have hj0 : j = 0 := by omega
       subst hj0
       exact (by decide : matchesClassify "Price" = false))⟩

/-- Claim C9: for every row collection and row id (clicking the toggle
of a row whose id-matching rows all carry status s), applying the
status-toggle update twice returns the processingStatus to its
original value — the second click requests the toggle of the toggled
status — while each update preserves every other row and every other
field (id and dynamic fields) of the updated rows; the toggle itself
only flips between the two statuses. -/
theorem claim_C9_status_toggle (rows : List Row) (i : String) (s : Status)
    (h : ∀ r ∈ rows, r.id = i → r.processingStatus = s) :
    updateStatus (updateStatus rows i (toggleStatus s)) i (toggleStatus (toggleStatus s)) = rows
    ∧ (∀ st, (updateStatus rows i st).map (fun r => (r.id, r.fields))
        = rows.map (fun r => (r.id, r.fields)))
    ∧ (∀ st r, r ∈ rows → ¬ (r.id = i) → r ∈ updateStatus rows i st)
    ∧ (∀ st, toggleStatus (toggleStatus st) = st) := by
  refine ⟨?_, ?_, ?_, ?_⟩
  · have ht : toggleStatus (toggleStatus s) = s := by cases s <;> rfl
    rw [ht]
    have main : ∀ (l : List Row), (∀ r ∈ l, r.id = i → r.processingStatus = s) →
        updateStatus (updateStatus l i (toggleStatus s)) i s = l := by
      intro l
      induction l with
      | nil => intro _; rfl
      | cons r rs ihl =>
        intro hl
        have hrs : ∀ x ∈ rs, x.id = i → x.processingStatus = s :=
          fun x hx => hl x (List.mem_cons_of_mem r hx)
        have ih2 := ihl hrs
        simp only [updateStatus, List.map_cons] at ih2 ⊢
        by_cases hid : ((r.id == i) = true)
        · rw [if_pos hid]
          have h1 : (((⟨r.id, toggleStatus s, r.fields⟩ : Row).id == i) = true) := hid
          rw [if_pos h1]
          have h2 : r.processingStatus = s := hl r (List.mem_cons_self r rs) (eq_of_beq hid)
          rw [ih2]
          obtain ⟨rid, rst, rf⟩ := r
          have h3 : rst = s := h2
          rw [h3]
        · rw [if_neg hid, if_neg hid, ih2]
    exact main rows h
  · intro st
    unfold updateStatus
    rw [List.map_map]
    apply List.map_congr_left
    intro r _
    by_cases hid : ((r.id == i) = true)
    · simp [Function.comp, hid]
    · simp [Function.comp, hid]
  · intro st r hr hne
    unfold updateStatus
    rw [List.mem_map]
    refine ⟨r, hr, ?_⟩
    have hb : ¬ ((r.id == i) = true) := by
      rw [beq_iff_eq]
      exact hne
    rw [if_neg hb]
  · intro st
    cases st <;> rfl

/-- Witness for claim C9 at a concrete two-row collection: toggling
row 1 twice restores the collection. -/
theorem claim_C9_witness :
    updateStatus (updateStatus
        [⟨"1", Status.incomplete, [("Name", Value.vStr "A")]⟩, ⟨"2", Status.completed, []⟩]
        "1" (toggleStatus Status.incomplete))
      "1" (toggleStatus (toggleStatus Status.incomplete))
      = [⟨"1", Status.incomplete, [("Name", Value.vStr "A")]⟩, ⟨"2", Status.completed, []⟩] :=
  (claim_C9_status_toggle
    [⟨"1", Status.incomplete, [("Name", Value.vStr "A")]⟩, ⟨"2", Status.completed, []⟩]
    "1" Status.incomplete (by decide)).1

/-- Claim C10 (implicit): the free-text search tests the stringified
values of all fields of a row, including the reserved id and
processingStatus fields, so a search string contained (case-insensitively)
only in a row's id or status text still makes the row visible, even
though the reserved fields are excluded from the discovered column
list. -/
theorem claim_C10_reserved_fields_searched (data : List Row) (col : String)
    (s : String) (r : Row) (hr : r ∈ data)
    (hid : containsSub (lowerL s.data) (lowerL r.id.data) = true
      ∨ containsSub (lowerL s.data) (lowerL (statusText r.processingStatus).data) = true) :
    r ∈ filteredData data s col none
    ∧ (∀ d : List Row, ¬ ("id" ∈ headersOf d) ∧ ¬ ("processingStatus" ∈ headersOf d)) := by
  constructor
  · unfold filteredData
    rw [List.mem_filter]
    refine ⟨hr, ?_⟩
    rw [Bool.and_eq_true]
    constructor
    · unfold matchesSearch
      rw [List.any_eq_true]
      rcases hid with h | h
      · exact ⟨r.id, by simp [rowValues], h⟩
      · exact ⟨statusText r.processingStatus, by simp [rowValues], h⟩
    · rfl
  · intro d
    cases d with
    | nil => simp [headersOf]
    | cons r0 rs =>
      constructor
      · simp [headersOf, List.mem_filter]
      · simp [headersOf, List.mem_filter]

/-- Witness for claim C10: a search string occurring only in the
generated row id (case-insensitively) keeps the row visible, and the
reserved fields are absent from the discovered headers. -/
theorem claim_C10_witness :
    (⟨"row-17", Status.incomplete, [("Name", Value.vStr "Widget")]⟩ : Row)
      ∈ filteredData [⟨"row-17", Status.incomplete, [("Name", Value.vStr "Widget")]⟩]
          "ROW-17" "Name" none
    ∧ (∀ d : List Row, ¬ ("id" ∈ headersOf d) ∧ ¬ ("processingStatus" ∈ headersOf d)) :=
  claim_C10_reserved_fields_searched
    [⟨"row-17", Status.incomplete, [("Name", Value.vStr "Widget")]⟩] "Name" "ROW-17"
    ⟨"row-17", Status.incomplete, [("Name", Value.vStr "Widget")]⟩
    (by simp) (Or.inl (by decide))

end PT

